import Mathlib

/-! Verification of the leaderboard checker `check.py`.

The development embeds the program's core shallowly:
* Python dicts with string keys become insertion-ordered association lists
  (`Dict`), with `get?`, `keys` and `insert` mirroring `d.get`, `d.keys()`
  and `d[k] = v`.
* The merge loop at the end of `main` becomes `merge_results`.
* `compare_states` becomes `compare_states` on an optional persisted state.
* `build_pattern` and `re.search` of the compiled pattern become a word
  list plus an executable case-insensitive matcher (`searchSeq`).
* `check_url_for_models` and its static/dynamic helpers are embedded with
  the raw fetch outcomes as oracles and an explicit trace of the fetch
  attempts performed; the dynamic fetch additionally gets a resource-event
  trace modelling Python's `with` statement semantics.
-/

namespace Check

/-- A Python dict with string keys, as an insertion-ordered association
list. Dicts built by the program have unique keys; lemmas take that
as a `Nodup` hypothesis where needed. -/
abbrev Dict (α : Type) : Type := List (String × α)

namespace Dict

/-- `d.get(k)` / `d[k]`: the value stored at key `k`, if any. -/
def get? (d : Dict α) (k : String) : Option α :=
  (d.find? (fun p => p.1 == k)).map (fun p => p.2)

/-- `list(d.keys())`, in insertion order. -/
def keys (d : Dict α) : List String :=
  d.map (fun p => p.1)

/-- `d[k] = v`: overwrite the entry in place when the key exists, else append. -/
def insert (d : Dict α) (k : String) (v : α) : Dict α :=
  if (keys d).contains k then d.map (fun p => if p.1 = k then (k, v) else p)
  else d ++ [(k, v)]

end Dict

/-- Insert a string into a strictly sorted list, keeping it strictly sorted
and duplicate-free. -/
def insertSorted (x : String) : List String → List String
  | [] => [x]
  | y :: ys =>
    if x < y then x :: y :: ys
    else if x = y then y :: ys
    else y :: insertSorted x ys

/-- Python `sorted(s)` for a set `s` given by a list of its elements:
the strictly sorted list of the distinct elements. -/
def sortedSet (l : List String) : List String :=
  l.foldr insertSorted []

/-- The merge loop at the end of `main` (check.py lines 236 to 243):
starting from a copy of the previous accumulated results, for each URL of the
current scan take the previously accumulated model list, drop every model in
the rescanned set, union in the models found now, and store the result
sorted. -/
def merge_results (old_results : Dict (List String))
    (current_scan : Dict (List String)) (rescanned : List String) :
    Dict (List String) :=
  current_scan.foldl (fun merged entry =>
    let prev := ((merged.get? entry.1).getD []).filter
      (fun m => ¬ rescanned.contains m)
    merged.insert entry.1 (sortedSet (prev ++ entry.2))) old_results

/-- The persisted state: a last_check timestamp and the accumulated
results mapping. -/
structure PState where
  last_check : String
  results : Dict (List String)

/-- The change summary computed by compare_states. -/
structure ChangeSet where
  first_run : Bool
  new_urls : List String
  removed_urls : List String
  model_changes : Dict (List String × List String)

/-- check.py compare_states (lines 116 to 153). Set-valued fields are
represented by lists with the right membership, since Python set iteration
order is unspecified. -/
def compare_states (old_state : Option PState)
    (new_results : Dict (List String)) : ChangeSet :=
  match old_state with
  | none =>
    { first_run := true
      new_urls := new_results.keys
      removed_urls := []
      model_changes := [] }
  | some st =>
    let old_results := st.results
    let old_urls := old_results.keys
    let new_urls := new_results.keys
    { first_run := false
      new_urls := new_urls.filter (fun u => ¬ old_urls.contains u)
      removed_urls := old_urls.filter (fun u => ¬ new_urls.contains u)
      model_changes :=
        (old_urls.filter (fun u => new_urls.contains u)).filterMap (fun url =>
          let old_models := (old_results.get? url).getD []
          let new_models := (new_results.get? url).getD []
          let added := new_models.filter (fun m => ¬ old_models.contains m)
          let removed := old_models.filter (fun m => ¬ new_models.contains m)
          if added.isEmpty && removed.isEmpty then none
          else some (url, (added, removed))) }

/-- The separator characters of build_pattern: the class split on by
re.split and accepted by the optional separator in the compiled pattern. -/
def isSep (c : Char) : Bool := c = ' ' || c = '-'

/-- Python str.strip: remove leading and trailing whitespace. -/
def pyStrip (s : List Char) : List Char :=
  ((s.dropWhile Char.isWhitespace).reverse.dropWhile Char.isWhitespace).reverse

/-- Splitting on maximal nonempty runs of spaces and dashes: the flag
records whether the previous character was a separator, so that a whole run
produces a single split; the accumulator holds the word being read,
reversed. -/
def splitSeps : Bool → List Char → List Char → List (List Char)
  | _, [], acc => [acc.reverse]
  | prevSep, c :: cs, acc =>
    if isSep c then
      if prevSep then splitSeps true cs acc
      else acc.reverse :: splitSeps true cs []
    else splitSeps false cs (c :: acc)

/-- re.split of the class of spaces and dashes over name.strip(): the words
of a model name. -/
def splitWords (name : List Char) : List (List Char) :=
  splitSeps false (pyStrip name) []

/-- check.py build_pattern (lines 15 to 19). The compiled pattern joins the
escaped words with an optional dash-or-space separator, case-insensitively;
since every word is escaped it matches literally, so the pattern is fully
described by its word list, and its matching semantics is searchSeq. -/
def build_pattern (name : List Char) : List (List Char) :=
  splitWords name

/-- Case-insensitive literal prefix stripping: when `w` is a prefix of `t`
up to character case, the remainder of `t`. -/
def stripPrefixCI : List Char → List Char → Option (List Char)
  | [], t => some t
  | _ :: _, [] => none
  | a :: w, c :: t => if a.toLower = c.toLower then stripPrefixCI w t else none

/-- A match of the compiled pattern at the start of `t`: each word in order,
literal and case-insensitive, with an optional single dash or space between
consecutive words. -/
def matchSeq : List (List Char) → List Char → Bool
  | [], _ => true
  | w :: ws, t =>
    match stripPrefixCI w t with
    | none => false
    | some t' =>
      if ws.isEmpty then true
      else
        matchSeq ws t' ||
          (match t' with
           | [] => false
           | c :: t'' => isSep c && matchSeq ws t'')

/-- re.search of the compiled pattern: try a match at every start position. -/
def searchSeq (ws : List (List Char)) : List Char → Bool
  | [] => matchSeq ws []
  | c :: t => matchSeq ws (c :: t) || searchSeq ws t

/-- The words joined with the same separator between each adjacent pair. -/
def joinWith (sep : List Char) : List (List Char) → List Char
  | [] => []
  | [w] => w
  | w :: w2 :: ws => w ++ sep ++ joinWith sep (w2 :: ws)

/-- The words joined with a chosen separator between each adjacent pair. -/
def joinSeps : List (List Char) → List (List Char) → List Char
  | [], _ => []
  | [w], _ => w
  | w :: w2 :: ws, [] => w ++ joinSeps (w2 :: ws) []
  | w :: w2 :: ws, s :: ss => w ++ s ++ joinSeps (w2 :: ws) ss

/-- A separator the compiled pattern accepts between two adjacent words. -/
def SepOk (s : List Char) : Prop := s = [] ∨ s = ['-'] ∨ s = [' ']

/-- Equality of strings up to character case. -/
def ciEq (a b : List Char) : Prop := a.map Char.toLower = b.map Char.toLower

/-- The word sequence occurs in `t`: some choice of per-gap separators
(nothing, a dash or a space) makes the joined words a case-insensitive
substring of `t`. -/
def SeqOccurs (ws : List (List Char)) (t : List Char) : Prop :=
  ∃ seps pre mid post, seps.length = ws.length - 1 ∧ (∀ s ∈ seps, SepOk s) ∧
    t = pre ++ mid ++ post ∧ ciEq mid (joinSeps ws seps)

/-- Result dictionary of one URL check: an error entry or the found list. -/
inductive FetchResult where
  | error (msg : String)
  | found (models : List String)
deriving DecidableEq

/-- Outcome of the raw page retrieval: the page text, or the message of the
exception raised while fetching. -/
inductive FetchOutcome where
  | ok (text : List Char)
  | fail (msg : String)

/-- The found_models loop shared by the static and dynamic checkers: the
names whose pattern matches the page text, in dict order. -/
def scanModels (patterns : Dict (List (List Char))) (text : List Char) :
    List String :=
  patterns.filterMap (fun p => if searchSeq p.2 text then some p.1 else none)

/-- check.py check_url_for_models_static (lines 34 to 46), with the raw
fetch outcome passed as an oracle. -/
def check_url_for_models_static (outcome : FetchOutcome)
    (patterns : Dict (List (List Char))) : FetchResult :=
  match outcome with
  | .fail e => .error e
  | .ok text => .found (scanModels patterns text)

/-- check.py check_url_for_models_dynamic (lines 49 to 73) as a result
mapping: an exception anywhere inside the Playwright block becomes the error
entry, success scans the rendered page content. -/
def check_url_for_models_dynamic (outcome : FetchOutcome)
    (patterns : Dict (List (List Char))) : FetchResult :=
  match outcome with
  | .fail e => .error e
  | .ok text => .found (scanModels patterns text)

/-- A fetch attempt performed by check_url_for_models. -/
inductive FetchAttempt where
  | staticFetch
  | dynamicFetch
deriving DecidableEq

/-- check.py check_url_for_models (lines 76 to 89): forced dynamic goes
straight to the dynamic checker; otherwise the static checker runs first and
the dynamic checker runs exactly when the static result is an error or an
empty found list. Also returns the attempts performed, in order. -/
def check_url_for_models (static_outcome dynamic_outcome : FetchOutcome)
    (patterns : Dict (List (List Char))) (use_dynamic : Bool) :
    List FetchAttempt × FetchResult :=
  if use_dynamic then
    ([.dynamicFetch], check_url_for_models_dynamic dynamic_outcome patterns)
  else
    match check_url_for_models_static static_outcome patterns with
    | .error _ =>
      ([.staticFetch, .dynamicFetch],
        check_url_for_models_dynamic dynamic_outcome patterns)
    | .found ms =>
      if ms.isEmpty then
        ([.staticFetch, .dynamicFetch],
          check_url_for_models_dynamic dynamic_outcome patterns)
      else ([.staticFetch], .found ms)

/-- The operations inside the dynamic checker's Playwright block that can
raise an exception. -/
inductive DynStep where
  | launch
  | newPage
  | goto
  | waitIdle
  | content
deriving DecidableEq

/-- Resource events of one dynamic fetch. Exiting the sync_playwright with
block stops the Playwright driver, which closes every browser it launched;
Python runs that exit action on normal and exceptional exit alike. -/
inductive DynEvent where
  | browserLaunched
  | browserClosed
  | playwrightStopped
deriving DecidableEq

/-- check.py check_url_for_models_dynamic (lines 49 to 73) over its exit
paths: failAt is the first operation that raises (none when everything
succeeds and the rendered page has content text). The trace lists the
resource events in order; the except handler turns any exception into the
error result. -/
def check_url_for_models_dynamic_run (failAt : Option DynStep)
    (errMsg : String) (patterns : Dict (List (List Char)))
    (text : List Char) : List DynEvent × FetchResult :=
  match failAt with
  | some .launch => ([.playwrightStopped], .error errMsg)
  | some .newPage => ([.browserLaunched, .playwrightStopped], .error errMsg)
  | some .goto => ([.browserLaunched, .playwrightStopped], .error errMsg)
  | some .waitIdle => ([.browserLaunched, .playwrightStopped], .error errMsg)
  | some .content => ([.browserLaunched, .playwrightStopped], .error errMsg)
  | none =>
    ([.browserLaunched, .browserClosed, .playwrightStopped],
      .found (scanModels patterns text))

/-- main's per-URL recording into current_scan (lines 226 to 234): a fetch
error is stored as an empty list, a success stores its found list. -/
def record_scan (res : FetchResult) : List String :=
  match res with
  | .error _ => []
  | .found ms => ms

/-! Library lemmas about the dict model. -/

namespace Dict

theorem get?_nil (k : String) : get? ([] : Dict α) k = none := rfl

theorem get?_cons (p : String × α) (d : Dict α) (k : String) :
    get? (p :: d) k = if p.1 = k then some p.2 else get? d k := by
  by_cases h : p.1 = k
  · simp [get?, List.find?_cons_of_pos, h]
  · rw [get?, List.find?_cons_of_neg _ (by simpa using h), if_neg h, get?]

theorem keys_nil : keys ([] : Dict α) = [] := rfl

theorem keys_cons (p : String × α) (d : Dict α) : keys (p :: d) = p.1 :: keys d := rfl

theorem get?_isSome_iff (d : Dict α) (k : String) :
    (get? d k).isSome ↔ k ∈ keys d := by
  induction d with
  | nil => simp [get?_nil, keys_nil]
  | cons p d ih =>
    rw [get?_cons, keys_cons]
    by_cases h : p.1 = k
    · simp [h]
    · simp [h, ih, Ne.symm h]

theorem get?_eq_none_iff (d : Dict α) (k : String) :
    get? d k = none ↔ k ∉ keys d := by
  rw [← get?_isSome_iff]
  cases get? d k <;> simp

theorem get?_append (d₁ d₂ : Dict α) (k : String) :
    get? (d₁ ++ d₂) k = ((get? d₁ k).rec (get? d₂ k) (fun v => some v)) := by
  induction d₁ with
  | nil => simp [get?_nil]
  | cons p d ih =>
    rw [List.cons_append, get?_cons, get?_cons]
    by_cases h : p.1 = k <;> simp [h, ih]

theorem get?_map_replace (d : Dict α) (k u : String) (v : α) :
    get? (d.map (fun p => if p.1 = k then (k, v) else p)) u
      = if u = k then (get? d k).map (fun _ => v) else get? d u := by
  induction d with
  | nil => simp [get?_nil]
  | cons p d ih =>
    simp only [List.map_cons, get?_cons]
    by_cases hpk : p.1 = k
    · by_cases huk : u = k
      · subst huk
        simp [hpk]
      · have hku : ¬ k = u := fun h => huk h.symm
        have hpu : ¬ p.1 = u := fun h => huk (h.symm.trans hpk)
        simp [hpk, huk, hku, hpu, ih]
    · by_cases huk : u = k
      · subst huk
        simp [hpk, ih]
      · by_cases hpu : p.1 = u
        · simp [hpk, huk, hpu]
        · simp [hpk, huk, hpu, ih]

theorem get?_insert (d : Dict α) (k u : String) (v : α) :
    get? (insert d k v) u = if u = k then some v else get? d u := by
  unfold insert
  by_cases hc : (keys d).contains k
  · rw [if_pos hc, get?_map_replace]
    by_cases huk : u = k
    · subst huk
      have : (get? d u).isSome := (get?_isSome_iff d u).2 (by simpa using hc)
      obtain ⟨a, ha⟩ := Option.isSome_iff_exists.1 this
      simp [ha]
    · simp [huk]
  · rw [if_neg hc, get?_append]
    have hnone : get? d k = none :=
      (get?_eq_none_iff d k).2 (by simpa using hc)
    by_cases huk : u = k
    · subst huk
      simp [hnone, get?_cons]
    · have hku : ¬ k = u := fun h => huk h.symm
      cases h : get? d u
      · simp [get?_cons, get?_nil, hku, huk]
      · simp [huk]

theorem keys_append (d₁ d₂ : Dict α) : keys (d₁ ++ d₂) = keys d₁ ++ keys d₂ :=
  List.map_append _ d₁ d₂

theorem keys_map_replace (d : Dict α) (k : String) (v : α) :
    keys (d.map (fun p => if p.1 = k then (k, v) else p)) = keys d := by
  induction d with
  | nil => rfl
  | cons p d ih =>
    rw [List.map_cons, keys_cons, keys_cons, ih]
    by_cases hpk : p.1 = k
    · simp [hpk]
    · rw [if_neg hpk]

theorem keys_insert_subset (d : Dict α) (k : String) (v : α) :
    keys d ⊆ keys (insert d k v) := by
  unfold insert
  by_cases hc : (keys d).contains k
  · rw [if_pos hc, keys_map_replace]
    exact List.Subset.refl _
  · rw [if_neg hc, keys_append]
    exact List.subset_append_left _ _

theorem get?_mem (d : Dict α) (k : String) (v : α) (h : get? d k = some v) :
    (k, v) ∈ d := by
  induction d with
  | nil => exact absurd h (by simp [get?_nil])
  | cons p d ih =>
    rw [get?_cons] at h
    by_cases hpk : p.1 = k
    · rw [if_pos hpk] at h
      injection h with h
      have hp : p = (k, v) := by
        cases p
        simp only [Prod.mk.injEq]
        exact ⟨hpk, h⟩
      rw [← hp]
      exact List.mem_cons_self _ _
    · rw [if_neg hpk] at h
      exact List.mem_cons_of_mem _ (ih h)

end Dict

/-! Library lemmas about the sorted-set canonical form. -/

theorem mem_insertSorted (x z : String) (l : List String) :
    z ∈ insertSorted x l ↔ z = x ∨ z ∈ l := by
  induction l with
  | nil => simp [insertSorted]
  | cons y ys ih =>
    unfold insertSorted
    by_cases hlt : x < y
    · simp [hlt]
    · by_cases heq : x = y
      · subst heq
        simp [hlt]
      · simp only [if_neg hlt, if_neg heq, List.mem_cons, ih]
        tauto

theorem sorted_insertSorted (x : String) (l : List String)
    (h : List.Sorted (· < ·) l) : List.Sorted (· < ·) (insertSorted x l) := by
  induction l with
  | nil => simp [insertSorted]
  | cons y ys ih =>
    rw [List.sorted_cons] at h
    unfold insertSorted
    by_cases hlt : x < y
    · rw [if_pos hlt, List.sorted_cons]
      refine ⟨?_, List.sorted_cons.2 h⟩
      intro b hb
      rcases List.mem_cons.1 hb with rfl | hb
      · exact hlt
      · exact lt_trans hlt (h.1 b hb)
    · by_cases heq : x = y
      · rw [if_neg hlt, if_pos heq]
        exact List.sorted_cons.2 h
      · rw [if_neg hlt, if_neg heq, List.sorted_cons]
        have hyx : y < x := by
          rcases lt_trichotomy x y with h1 | h1 | h1
          · exact absurd h1 hlt
          · exact absurd h1 heq
          · exact h1
        refine ⟨?_, ih h.2⟩
        intro b hb
        rcases (mem_insertSorted x b ys).1 hb with rfl | hb
        · exact hyx
        · exact h.1 b hb

theorem mem_sortedSet (z : String) (l : List String) :
    z ∈ sortedSet l ↔ z ∈ l := by
  induction l with
  | nil => simp [sortedSet]
  | cons y ys ih =>
    simp [sortedSet, List.foldr_cons, mem_insertSorted]
    rw [sortedSet] at ih
    simp [ih]

theorem sorted_sortedSet (l : List String) : List.Sorted (· < ·) (sortedSet l) := by
  induction l with
  | nil => simp [sortedSet]
  | cons y ys ih => exact sorted_insertSorted y _ ih

theorem nodup_sortedSet (l : List String) : (sortedSet l).Nodup :=
  (sorted_sortedSet l).nodup

/-- Two element-wise equivalent lists have the same `sortedSet`: the strictly
sorted list of the distinct elements is a canonical form. -/
theorem sortedSet_congr (l₁ l₂ : List String)
    (h : ∀ x, x ∈ l₁ ↔ x ∈ l₂) : sortedSet l₁ = sortedSet l₂ := by
  haveI : IsAntisymm String (· < ·) :=
    ⟨fun a b h1 h2 => absurd (lt_trans h1 h2) (lt_irrefl a)⟩
  refine List.eq_of_perm_of_sorted ?_ (sorted_sortedSet l₁) (sorted_sortedSet l₂)
  refine (List.perm_ext_iff_of_nodup (nodup_sortedSet l₁) (nodup_sortedSet l₂)).2 ?_
  intro x
  rw [mem_sortedSet, mem_sortedSet]
  exact h x

/-! Library lemmas about the merge loop. -/

theorem merge_results_nil (old_results : Dict (List String))
    (rescanned : List String) :
    merge_results old_results [] rescanned = old_results := rfl

theorem merge_results_cons (old_results : Dict (List String))
    (p : String × List String) (scan : Dict (List String))
    (rescanned : List String) :
    merge_results old_results (p :: scan) rescanned =
      merge_results
        (old_results.insert p.1
          (sortedSet ((((old_results.get? p.1).getD []).filter
            (fun m => ¬ rescanned.contains m)) ++ p.2)))
        scan rescanned := rfl

/-- URLs not in the current scan are untouched by the merge loop. -/
theorem merge_results_get?_not_mem (scan : Dict (List String)) :
    ∀ (old_results : Dict (List String)) (rescanned : List String)
      (url : String), url ∉ scan.keys →
      (merge_results old_results scan rescanned).get? url =
        old_results.get? url := by
  induction scan with
  | nil => intro old rescanned url _; rfl
  | cons p scan ih =>
    intro old rescanned url hurl
    rw [Dict.keys_cons, List.mem_cons] at hurl
    push_neg at hurl
    rw [merge_results_cons, ih _ _ _ hurl.2, Dict.get?_insert,
      if_neg hurl.1]

/-- The value the merge loop stores for a URL of the current scan. -/
theorem merge_results_get?_mem (scan : Dict (List String)) :
    ∀ (old_results : Dict (List String)) (rescanned : List String)
      (url : String) (f : List String), scan.keys.Nodup →
      scan.get? url = some f →
      (merge_results old_results scan rescanned).get? url =
        some (sortedSet ((((old_results.get? url).getD []).filter
          (fun m => ¬ rescanned.contains m)) ++ f)) := by
  induction scan with
  | nil => intro _ _ _ _ _ h; exact absurd h (by simp [Dict.get?_nil])
  | cons p scan ih =>
    intro old rescanned url f hnd hget
    rw [Dict.keys_cons, List.nodup_cons] at hnd
    rw [Dict.get?_cons] at hget
    by_cases hpu : p.1 = url
    · rw [if_pos hpu] at hget
      injection hget with hf
      subst hf
      subst hpu
      rw [merge_results_cons,
        merge_results_get?_not_mem scan _ _ _ hnd.1,
        Dict.get?_insert, if_pos rfl]
    · rw [if_neg hpu] at hget
      rw [merge_results_cons, ih _ _ _ _ hnd.2 hget, Dict.get?_insert,
        if_neg (fun h => hpu h.symm)]

/-- The merge loop never deletes a URL entry. -/
theorem merge_results_keys_subset (scan : Dict (List String)) :
    ∀ (old_results : Dict (List String)) (rescanned : List String),
      old_results.keys ⊆ (merge_results old_results scan rescanned).keys := by
  induction scan with
  | nil => intro old _; exact List.Subset.refl _
  | cons p scan ih =>
    intro old rescanned
    rw [merge_results_cons]
    exact (Dict.keys_insert_subset old p.1 _).trans (ih _ _)

/-! Library lemmas about the pattern matcher. -/

theorem stripPrefixCI_self_append (w t : List Char) :
    stripPrefixCI w (w ++ t) = some t := by
  induction w with
  | nil => rfl
  | cons a w ih => simp [stripPrefixCI, ih]

theorem matchSeq_cons (w : List Char) (ws : List (List Char)) (t : List Char) :
    matchSeq (w :: ws) t =
      (match stripPrefixCI w t with
      | none => false
      | some t' =>
        if ws.isEmpty then true
        else
          matchSeq ws t' ||
            (match t' with
             | [] => false
             | c :: t'' => isSep c && matchSeq ws t'')) := by
  rw [matchSeq]

/-- A match of the whole word sequence at the start of a join by one fixed
admissible separator, whatever follows it. -/
theorem matchSeq_joinWith (sep : List Char) (hsep : SepOk sep)
    (ws : List (List Char)) (t : List Char) :
    matchSeq ws (joinWith sep ws ++ t) = true := by
  induction ws with
  | nil => rfl
  | cons w ws ih =>
    cases ws with
    | nil => simp [joinWith, matchSeq_cons, stripPrefixCI_self_append]
    | cons w2 ws' =>
      have harr : (joinWith sep (w :: w2 :: ws')) ++ t
          = w ++ (sep ++ (joinWith sep (w2 :: ws') ++ t)) := by
        simp [joinWith]
      rw [harr, matchSeq_cons, stripPrefixCI_self_append]
      rcases hsep with rfl | rfl | rfl
      · simp [ih]
      · simp [isSep, ih]
      · simp [isSep, ih]

theorem searchSeq_of_matchSeq (ws : List (List Char)) (t : List Char)
    (h : matchSeq ws t = true) : searchSeq ws t = true := by
  cases t with
  | nil => exact h
  | cons c t => simp [searchSeq, h]

/-- The pattern matches the words joined by any one admissible separator. -/
theorem searchSeq_joinWith (sep : List Char) (hsep : SepOk sep)
    (ws : List (List Char)) :
    searchSeq ws (joinWith sep ws) = true := by
  apply searchSeq_of_matchSeq
  have := matchSeq_joinWith sep hsep ws []
  simpa using this

theorem stripPrefixCI_sound (w : List Char) :
    ∀ t t', stripPrefixCI w t = some t' →
      ∃ w', t = w' ++ t' ∧ ciEq w' w := by
  induction w with
  | nil =>
    intro t t' h
    rw [stripPrefixCI] at h
    injection h with h
    exact ⟨[], by simp [h], rfl⟩
  | cons a w ih =>
    intro t t' h
    cases t with
    | nil => exact absurd h (by simp [stripPrefixCI])
    | cons c t =>
      rw [stripPrefixCI] at h
      by_cases hc : a.toLower = c.toLower
      · rw [if_pos hc] at h
        obtain ⟨w', hw1, hw2⟩ := ih t t' h
        refine ⟨c :: w', by simp [hw1], ?_⟩
        simp only [ciEq, List.map_cons] at hw2 ⊢
        rw [hw2, hc]
      · rw [if_neg hc] at h
        exact absurd h (by simp)

theorem ciEq_append (a b c d : List Char) (h₁ : ciEq a c) (h₂ : ciEq b d) :
    ciEq (a ++ b) (c ++ d) := by
  simp only [ciEq, List.map_append] at h₁ h₂ ⊢
  rw [h₁, h₂]

/-- A successful anchored match consumes a case-insensitive copy of the
words joined by admissible separators. -/
theorem matchSeq_sound (ws : List (List Char)) :
    ∀ t, matchSeq ws t = true →
      ∃ seps mid post, seps.length = ws.length - 1 ∧ (∀ s ∈ seps, SepOk s) ∧
        t = mid ++ post ∧ ciEq mid (joinSeps ws seps) := by
  induction ws with
  | nil =>
    intro t _
    exact ⟨[], [], t, rfl, by simp, rfl, rfl⟩
  | cons w ws ih =>
    intro t h
    rw [matchSeq] at h
    cases hs : stripPrefixCI w t with
    | none => rw [hs] at h; exact absurd h (by simp)
    | some t' =>
      rw [hs] at h
      obtain ⟨w', ht, hciw⟩ := stripPrefixCI_sound w t t' hs
      cases ws with
      | nil =>
        refine ⟨[], w', t', rfl, by simp, ht, ?_⟩
        simpa [joinSeps] using hciw
      | cons w2 ws' =>
        simp only [List.isEmpty_cons, Bool.false_eq_true, if_false,
          Bool.or_eq_true] at h
        rcases h with h1 | h2
        · obtain ⟨seps', mid', post', hlen, hok, ht', hci⟩ := ih t' h1
          refine ⟨[] :: seps', w' ++ mid', post', ?_, ?_, ?_, ?_⟩
          · simpa using hlen
          · intro s hs'
            rcases List.mem_cons.1 hs' with rfl | hs'
            · exact Or.inl rfl
            · exact hok s hs'
          · rw [ht, ht', List.append_assoc]
          · have : joinSeps (w :: w2 :: ws') ([] :: seps')
                = w ++ joinSeps (w2 :: ws') seps' := by
              simp [joinSeps]
            rw [this]
            exact ciEq_append _ _ _ _ hciw hci
        · cases ht' : t' with
          | nil => rw [ht'] at h2; exact absurd h2 (by simp)
          | cons c t'' =>
            rw [ht'] at h2
            simp only [Bool.and_eq_true] at h2
            obtain ⟨hc, hm⟩ := h2
            obtain ⟨seps', mid', post', hlen, hok, ht'', hci⟩ := ih t'' hm
            refine ⟨[c] :: seps', w' ++ c :: mid', post', ?_, ?_, ?_, ?_⟩
            · simpa using hlen
            · intro s hs'
              rcases List.mem_cons.1 hs' with rfl | hs'
              · have : c = ' ' ∨ c = '-' := by simpa [isSep] using hc
                rcases this with rfl | rfl
                · exact Or.inr (Or.inr rfl)
                · exact Or.inr (Or.inl rfl)
              · exact hok s hs'
            · rw [ht, ht', ht'']
              simp
            · have : joinSeps (w :: w2 :: ws') ([c] :: seps')
                  = w ++ [c] ++ joinSeps (w2 :: ws') seps' := by
                simp [joinSeps]
              rw [this]
              have h1 : ciEq (w' ++ [c]) (w ++ [c]) :=
                ciEq_append _ _ _ _ hciw rfl
              have := ciEq_append _ _ _ _ h1 hci
              simpa using this

/-- A successful search exhibits an occurrence of the word sequence. -/
theorem searchSeq_sound (ws : List (List Char)) :
    ∀ t, searchSeq ws t = true → SeqOccurs ws t := by
  intro t
  induction t with
  | nil =>
    intro h
    obtain ⟨seps, mid, post, hlen, hok, ht, hci⟩ := matchSeq_sound ws [] h
    exact ⟨seps, [], mid, post, hlen, hok, by simpa using ht, hci⟩
  | cons c t ih =>
    intro h
    rw [searchSeq, Bool.or_eq_true] at h
    rcases h with h1 | h2
    · obtain ⟨seps, mid, post, hlen, hok, ht, hci⟩ := matchSeq_sound ws _ h1
      exact ⟨seps, [], mid, post, hlen, hok, by simpa using ht, hci⟩
    · obtain ⟨seps, pre, mid, post, hlen, hok, ht, hci⟩ := ih h2
      exact ⟨seps, c :: pre, mid, post, hlen, hok, by simp [ht], hci⟩

/-! Library lemmas about the fetch strategy. -/

theorem check_url_forced (so dyo : FetchOutcome)
    (patterns : Dict (List (List Char))) :
    check_url_for_models so dyo patterns true =
      ([FetchAttempt.dynamicFetch],
        check_url_for_models_dynamic dyo patterns) := rfl

theorem check_url_unforced (so dyo : FetchOutcome)
    (patterns : Dict (List (List Char))) :
    check_url_for_models so dyo patterns false =
      (match check_url_for_models_static so patterns with
       | .error _ =>
         ([FetchAttempt.staticFetch, FetchAttempt.dynamicFetch],
           check_url_for_models_dynamic dyo patterns)
       | .found ms =>
         if ms.isEmpty then
           ([FetchAttempt.staticFetch, FetchAttempt.dynamicFetch],
             check_url_for_models_dynamic dyo patterns)
         else ([FetchAttempt.staticFetch], .found ms)) := rfl

/-! Claim theorems. -/

/-- Claim C1: for every prior accumulated state, current scan and
requested-model set, the merged state maps each URL present in the current
scan to the sorted duplicate-free union of the prior accumulated entry
minus the requested models with the models found this scan, and every URL
absent from the current scan keeps its prior entry unchanged. The Nodup
hypothesis is the Python dict invariant on the current scan's keys. -/
theorem merge_spec (old_results scan : Dict (List String))
    (rescanned : List String) (hnd : scan.keys.Nodup) :
    (∀ url f, scan.get? url = some f →
      ∃ ms, (merge_results old_results scan rescanned).get? url = some ms ∧
        List.Sorted (· < ·) ms ∧ ms.Nodup ∧
        (∀ m, m ∈ ms ↔
          (m ∈ (old_results.get? url).getD [] ∧ m ∉ rescanned) ∨ m ∈ f)) ∧
    (∀ url, url ∉ scan.keys →
      (merge_results old_results scan rescanned).get? url =
        old_results.get? url) := by
  constructor
  · intro url f hget
    refine ⟨_,
      merge_results_get?_mem scan old_results rescanned url f hnd hget,
      sorted_sortedSet _, nodup_sortedSet _, ?_⟩
    intro m
    rw [mem_sortedSet, List.mem_append, List.mem_filter]
    simp
  · intro url hurl
    exact merge_results_get?_not_mem scan old_results rescanned url hurl

/-- Witness for merge_spec at a concrete state, scan and request set. -/
theorem merge_spec_witness :
    ∃ ms, (merge_results [("a", ["M1", "M2"])] [("a", ["M3"]), ("b", [])]
        ["M1", "M3"]).get? "a" = some ms ∧
      List.Sorted (· < ·) ms ∧ ms.Nodup ∧
      (∀ m, m ∈ ms ↔
        (m ∈ ((Dict.get? [("a", ["M1", "M2"])] "a").getD []) ∧
          m ∉ ["M1", "M3"]) ∨ m ∈ ["M3"]) :=
  (merge_spec [("a", ["M1", "M2"])] [("a", ["M3"]), ("b", [])] ["M1", "M3"]
    (by decide)).1 "a" ["M3"] rfl

/-- Claim C6: a model not in the requested set that is in a URL's prior
accumulated entry is still in that URL's merged entry, even when it is
absent from the current scan's found list for that URL. -/
theorem merge_non_interference (old_results scan : Dict (List String))
    (rescanned : List String) (url m : String) (hnd : scan.keys.Nodup)
    (hm : m ∉ rescanned) (hprev : m ∈ (old_results.get? url).getD []) :
    ∃ ms, (merge_results old_results scan rescanned).get? url = some ms ∧
      m ∈ ms := by
  cases hscan : scan.get? url with
  | none =>
    rw [merge_results_get?_not_mem scan old_results rescanned url
      ((Dict.get?_eq_none_iff scan url).1 hscan)]
    cases hold : old_results.get? url with
    | none => rw [hold] at hprev; simp at hprev
    | some prior =>
      rw [hold] at hprev
      exact ⟨prior, rfl, by simpa using hprev⟩
  | some f =>
    rw [merge_results_get?_mem scan old_results rescanned url f hnd hscan]
    refine ⟨_, rfl, ?_⟩
    rw [mem_sortedSet, List.mem_append]
    left
    rw [List.mem_filter]
    exact ⟨hprev, by simpa using hm⟩

/-- Witness for merge_non_interference: M2 was not rescanned and survives a
scan that did not find it. -/
theorem merge_non_interference_witness :
    ∃ ms, (merge_results [("a", ["M2"])] [("a", ["M3"])] ["M3"]).get? "a"
        = some ms ∧ "M2" ∈ ms :=
  merge_non_interference [("a", ["M2"])] [("a", ["M3"])] ["M3"] "a" "M2"
    (by decide) (by decide) (by decide)

/-- Claim C7: when every model found by the current scan is in the requested
set, merging the same scan a second time into the merged state changes
nothing: the two states agree on every URL. -/
theorem merge_idempotent (old_results scan : Dict (List String))
    (rescanned : List String) (hnd : scan.keys.Nodup)
    (hreq : ∀ p ∈ scan, ∀ m ∈ p.2, m ∈ rescanned) :
    ∀ url,
      (merge_results (merge_results old_results scan rescanned) scan
          rescanned).get? url =
        (merge_results old_results scan rescanned).get? url := by
  intro url
  cases hscan : scan.get? url with
  | none =>
    exact merge_results_get?_not_mem scan _ rescanned url
      ((Dict.get?_eq_none_iff scan url).1 hscan)
  | some f =>
    rw [merge_results_get?_mem scan (merge_results old_results scan rescanned)
        rescanned url f hnd hscan,
      merge_results_get?_mem scan old_results rescanned url f hnd hscan,
      Option.getD_some]
    congr 1
    apply sortedSet_congr
    intro x
    constructor
    · intro hx
      rcases List.mem_append.1 hx with hx | hx
      · have hx' := List.mem_of_mem_filter hx
        rw [mem_sortedSet] at hx'
        exact hx'
      · exact List.mem_append.2 (Or.inr hx)
    · intro hx
      rcases List.mem_append.1 hx with hx | hx
      · refine List.mem_append.2 (Or.inl (List.mem_filter.2 ⟨?_, ?_⟩))
        · rw [mem_sortedSet]
          exact List.mem_append.2 (Or.inl hx)
        · exact (List.mem_filter.1 hx).2
      · exact List.mem_append.2 (Or.inr hx)

/-- Witness for merge_idempotent at a concrete state and scan whose found
models all come from the requested set. -/
theorem merge_idempotent_witness :
    (merge_results (merge_results [("a", ["M1", "M2"])] [("a", ["M3"])]
        ["M1", "M3"]) [("a", ["M3"])] ["M1", "M3"]).get? "a" =
      (merge_results [("a", ["M1", "M2"])] [("a", ["M3"])]
        ["M1", "M3"]).get? "a" :=
  merge_idempotent [("a", ["M1", "M2"])] [("a", ["M3"])] ["M1", "M3"]
    (by decide) (by decide) "a"

/-- Claim C8: a fetch error is recorded as an empty found list in the
current scan, so the merge drops every requested model from that URL's
accumulated entry: requested positives do not survive a fetch error. -/
theorem fetch_error_clears_requested (old_results scan : Dict (List String))
    (rescanned : List String) (url e : String) (hnd : scan.keys.Nodup)
    (hscan : scan.get? url = some (record_scan (FetchResult.error e))) :
    record_scan (FetchResult.error e) = [] ∧
    ∃ ms, (merge_results old_results scan rescanned).get? url = some ms ∧
      ∀ m ∈ rescanned, m ∉ ms := by
  refine ⟨rfl, ?_⟩
  rw [merge_results_get?_mem scan old_results rescanned url _ hnd hscan]
  refine ⟨_, rfl, ?_⟩
  intro m hm hmem
  rw [mem_sortedSet] at hmem
  rcases List.mem_append.1 hmem with h | h
  · have hdec := (List.mem_filter.1 h).2
    simp at hdec
    exact hdec hm
  · simp [record_scan] at h

/-- Witness for fetch_error_clears_requested: after an errored rescan of M1,
M1 is gone from the accumulated entry. -/
theorem fetch_error_clears_requested_witness :
    record_scan (FetchResult.error "net") = [] ∧
    ∃ ms, (merge_results [("a", ["M1", "M2"])] [("a", [])] ["M1"]).get? "a"
        = some ms ∧ ∀ m ∈ ["M1"], m ∉ ms :=
  fetch_error_clears_requested [("a", ["M1", "M2"])] [("a", [])] ["M1"]
    "a" "net" (by decide) rfl

/-- Claim C9: the merged state keeps every URL of the prior state, so the
ChangeSet produced by comparing the prior state with the merged state has
an empty removed_urls list (also on the first-run branch). -/
theorem merge_never_removes_urls (ts : String)
    (old_results scan : Dict (List String)) (rescanned : List String) :
    old_results.keys ⊆ (merge_results old_results scan rescanned).keys ∧
    (compare_states (some ⟨ts, old_results⟩)
        (merge_results old_results scan rescanned)).removed_urls = [] ∧
    (compare_states none
        (merge_results old_results scan rescanned)).removed_urls = [] := by
  have hsub := merge_results_keys_subset scan old_results rescanned
  refine ⟨hsub, ?_, rfl⟩
  show (Dict.keys old_results).filter
      (fun u =>
        ¬ (Dict.keys (merge_results old_results scan rescanned)).contains u)
    = []
  rw [List.filter_eq_nil_iff]
  intro u hu
  simp [hsub hu]

/-- Witness for merge_never_removes_urls at a concrete state and scan. -/
theorem merge_never_removes_urls_witness :
    Dict.keys [("a", ["M1"])] ⊆
      Dict.keys (merge_results [("a", ["M1"])] [("b", ["M2"])] ["M2"]) ∧
    (compare_states (some ⟨"t", [("a", ["M1"])]⟩)
        (merge_results [("a", ["M1"])] [("b", ["M2"])] ["M2"])).removed_urls
      = [] ∧
    (compare_states none
        (merge_results [("a", ["M1"])] [("b", ["M2"])] ["M2"])).removed_urls
      = [] :=
  merge_never_removes_urls "t" [("a", ["M1"])] [("b", ["M2"])] ["M2"]

/-- Claim C2: with no old state the ChangeSet is first_run with all current
URLs; otherwise first_run is false, new_urls and removed_urls are the key
set differences, and for each URL in both states a model_changes entry with
added and removed equal to the per-URL model set differences is present
exactly when one of them is non-empty. -/
theorem compare_states_spec (st : PState) (new_results : Dict (List String)) :
    (compare_states none new_results =
      { first_run := true
        new_urls := new_results.keys
        removed_urls := []
        model_changes := [] }) ∧
    (compare_states (some st) new_results).first_run = false ∧
    (∀ u, u ∈ (compare_states (some st) new_results).new_urls ↔
      u ∈ new_results.keys ∧ u ∉ st.results.keys) ∧
    (∀ u, u ∈ (compare_states (some st) new_results).removed_urls ↔
      u ∈ st.results.keys ∧ u ∉ new_results.keys) ∧
    (∀ url a r,
      (url, (a, r)) ∈ (compare_states (some st) new_results).model_changes ↔
        url ∈ st.results.keys ∧ url ∈ new_results.keys ∧
        a = ((new_results.get? url).getD []).filter
              (fun m => ¬ ((st.results.get? url).getD []).contains m) ∧
        r = ((st.results.get? url).getD []).filter
              (fun m => ¬ ((new_results.get? url).getD []).contains m) ∧
        ¬ (a = [] ∧ r = [])) ∧
    (∀ url a r,
      (url, (a, r)) ∈ (compare_states (some st) new_results).model_changes →
        (∀ m, m ∈ a ↔ m ∈ (new_results.get? url).getD [] ∧
            m ∉ (st.results.get? url).getD []) ∧
        (∀ m, m ∈ r ↔ m ∈ (st.results.get? url).getD [] ∧
            m ∉ (new_results.get? url).getD [])) := by
  have hmc : ∀ url a r,
      (url, (a, r)) ∈ (compare_states (some st) new_results).model_changes ↔
        url ∈ st.results.keys ∧ url ∈ new_results.keys ∧
        a = ((new_results.get? url).getD []).filter
              (fun m => ¬ ((st.results.get? url).getD []).contains m) ∧
        r = ((st.results.get? url).getD []).filter
              (fun m => ¬ ((new_results.get? url).getD []).contains m) ∧
        ¬ (a = [] ∧ r = []) := by
    intro url a r
    show (url, (a, r)) ∈
        ((Dict.keys st.results).filter
          (fun u => (Dict.keys new_results).contains u)).filterMap _ ↔ _
    rw [List.mem_filterMap]
    constructor
    · rintro ⟨u, hu, heq⟩
      rw [List.mem_filter] at hu
      dsimp only at heq
      split at heq
      · exact absurd heq (by simp)
      · rename_i hcond
        injection heq with heq2
        injection heq2 with hu1 hrest
        injection hrest with ha hr
        subst hu1
        refine ⟨hu.1, by simpa using hu.2, ha.symm, hr.symm, ?_⟩
        rintro ⟨ha0, hr0⟩
        apply hcond
        rw [← ha, ← hr] at *
        rw [ha0, hr0]
        rfl
    · rintro ⟨hold, hnew, ha, hr, hne⟩
      refine ⟨url, List.mem_filter.2 ⟨hold, by simpa using hnew⟩, ?_⟩
      have hcondF :
          ¬ ((((new_results.get? url).getD []).filter
                (fun m => ¬ ((st.results.get? url).getD []).contains m)).isEmpty
              && (((st.results.get? url).getD []).filter
                (fun m => ¬ ((new_results.get? url).getD []).contains m)).isEmpty)
            = true := by
        intro hcond
        rw [Bool.and_eq_true, List.isEmpty_iff, List.isEmpty_iff] at hcond
        exact hne ⟨ha.trans hcond.1, hr.trans hcond.2⟩
      rw [if_neg hcondF, ← ha, ← hr]
  refine ⟨rfl, rfl, ?_, ?_, hmc, ?_⟩
  · intro u
    show u ∈ (Dict.keys new_results).filter
        (fun u => ¬ (Dict.keys st.results).contains u) ↔ _
    rw [List.mem_filter]
    simp
  · intro u
    show u ∈ (Dict.keys st.results).filter
        (fun u => ¬ (Dict.keys new_results).contains u) ↔ _
    rw [List.mem_filter]
    simp
  · intro url a r hmem
    obtain ⟨_, _, ha, hr, _⟩ := (hmc url a r).1 hmem
    constructor
    · intro m
      rw [ha, List.mem_filter]
      simp
    · intro m
      rw [hr, List.mem_filter]
      simp

/-- Witness for compare_states_spec at a concrete old and new state. -/
theorem compare_states_spec_witness :
    (compare_states (some ⟨"t", [("a", ["M1"])]⟩)
      [("a", ["M1", "M2"]), ("b", [])]).first_run = false :=
  (compare_states_spec ⟨"t", [("a", ["M1"])]⟩
    [("a", ["M1", "M2"]), ("b", [])]).2.1

/-- Claim C3: the matcher built from a non-empty model name of N words
matches the words joined by single spaces, by single dashes, and
concatenated with no separator, case-insensitively; and whenever it matches
a text, the unaltered word sequence occurs in that text, so a text in which
a word is altered (leaving no occurrence of the word sequence) is never
matched. -/
theorem build_pattern_spec (name : List Char) (ws : List (List Char))
    (hws : build_pattern name = ws) (hne : ws ≠ [])
    (hwords : ∀ w ∈ ws, w ≠ []) :
    (searchSeq ws (joinWith [' '] ws) = true ∧
     searchSeq ws (joinWith ['-'] ws) = true ∧
     searchSeq ws (joinWith [] ws) = true) ∧
    (∀ t, searchSeq ws t = true → SeqOccurs ws t) :=
  ⟨⟨searchSeq_joinWith [' '] (Or.inr (Or.inr rfl)) ws,
    searchSeq_joinWith ['-'] (Or.inr (Or.inl rfl)) ws,
    searchSeq_joinWith [] (Or.inl rfl) ws⟩,
   fun t => searchSeq_sound ws t⟩

/-- Witness for build_pattern_spec on the name Claude 4 Opus. -/
theorem build_pattern_spec_witness :
    (searchSeq ["Claude".toList, "4".toList, "Opus".toList]
        (joinWith [' '] ["Claude".toList, "4".toList, "Opus".toList])
      = true ∧
     searchSeq ["Claude".toList, "4".toList, "Opus".toList]
        (joinWith ['-'] ["Claude".toList, "4".toList, "Opus".toList])
      = true ∧
     searchSeq ["Claude".toList, "4".toList, "Opus".toList]
        (joinWith [] ["Claude".toList, "4".toList, "Opus".toList])
      = true) ∧
    (∀ t, searchSeq ["Claude".toList, "4".toList, "Opus".toList] t = true →
      SeqOccurs ["Claude".toList, "4".toList, "Opus".toList] t) :=
  build_pattern_spec "Claude 4 Opus".toList
    ["Claude".toList, "4".toList, "Opus".toList] (by decide) (by decide)
    (by decide)

/-- Claim C4: without forced dynamic mode the static fetch runs first and
its result is returned exactly when it succeeded with at least one model;
on a static error or an empty static find, the one dynamic attempt's result
is returned; forced dynamic mode performs no static attempt at all. -/
theorem fetch_fallback_spec (so dyo : FetchOutcome)
    (patterns : Dict (List (List Char))) :
    ((check_url_for_models so dyo patterns false).1.head?
        = some FetchAttempt.staticFetch) ∧
    (∀ ms, check_url_for_models_static so patterns = FetchResult.found ms →
      ms ≠ [] →
      check_url_for_models so dyo patterns false =
        ([FetchAttempt.staticFetch], FetchResult.found ms)) ∧
    (∀ e, check_url_for_models_static so patterns = FetchResult.error e →
      check_url_for_models so dyo patterns false =
        ([FetchAttempt.staticFetch, FetchAttempt.dynamicFetch],
          check_url_for_models_dynamic dyo patterns)) ∧
    (check_url_for_models_static so patterns = FetchResult.found [] →
      check_url_for_models so dyo patterns false =
        ([FetchAttempt.staticFetch, FetchAttempt.dynamicFetch],
          check_url_for_models_dynamic dyo patterns)) ∧
    (check_url_for_models so dyo patterns true =
        ([FetchAttempt.dynamicFetch],
          check_url_for_models_dynamic dyo patterns) ∧
      FetchAttempt.staticFetch ∉
        (check_url_for_models so dyo patterns true).1) := by
  refine ⟨?_, ?_, ?_, ?_, check_url_forced so dyo patterns, ?_⟩
  · rw [check_url_unforced]
    cases check_url_for_models_static so patterns with
    | error e => rfl
    | found ms =>
      cases ms with
      | nil => rfl
      | cons x xs => rfl
  · intro ms hms hne
    rw [check_url_unforced, hms]
    have h' : ms.isEmpty = false := by
      cases ms
      · exact absurd rfl hne
      · rfl
    simp [h']
  · intro e he
    rw [check_url_unforced, he]
  · intro h0
    rw [check_url_unforced, h0]
    rfl
  · rw [check_url_forced]
    simp

/-- Witness for fetch_fallback_spec: a static hit is returned with no
dynamic attempt. -/
theorem fetch_fallback_spec_witness :
    check_url_for_models (FetchOutcome.ok "xaz".toList)
        (FetchOutcome.fail "boom") [("A", [['a']])] false =
      ([FetchAttempt.staticFetch], FetchResult.found ["A"]) :=
  (fetch_fallback_spec (FetchOutcome.ok "xaz".toList)
    (FetchOutcome.fail "boom") [("A", [['a']])]).2.1 ["A"] rfl (by decide)

/-- Claim C5: on every exit path of the dynamic fetch on which the browser
was launched, including exceptions raised during navigation or waiting, the
browser is released before the function returns (explicit close on success,
Playwright stop on every path); the result is always the error entry or the
scanned found entry. -/
theorem dynamic_cleanup_spec (failAt : Option DynStep) (errMsg : String)
    (patterns : Dict (List (List Char))) (text : List Char) :
    (DynEvent.browserLaunched ∈
        (check_url_for_models_dynamic_run failAt errMsg patterns text).1 →
      DynEvent.browserClosed ∈
          (check_url_for_models_dynamic_run failAt errMsg patterns text).1 ∨
        DynEvent.playwrightStopped ∈
          (check_url_for_models_dynamic_run failAt errMsg patterns text).1) ∧
    ((check_url_for_models_dynamic_run failAt errMsg patterns text).2 =
        FetchResult.error errMsg ∨
      (check_url_for_models_dynamic_run failAt errMsg patterns text).2 =
        FetchResult.found (scanModels patterns text)) := by
  cases failAt with
  | none =>
    exact ⟨fun _ => Or.inl (by simp [check_url_for_models_dynamic_run]),
      Or.inr rfl⟩
  | some step =>
    cases step <;>
      exact ⟨fun _ => Or.inr (by simp [check_url_for_models_dynamic_run]),
        Or.inl rfl⟩

/-- Witness for dynamic_cleanup_spec: navigation timeout still releases the
browser. -/
theorem dynamic_cleanup_spec_witness :
    DynEvent.browserClosed ∈
        (check_url_for_models_dynamic_run (some DynStep.goto) "timeout"
          ([] : Dict (List (List Char))) ([] : List Char)).1 ∨
      DynEvent.playwrightStopped ∈
        (check_url_for_models_dynamic_run (some DynStep.goto) "timeout"
          ([] : Dict (List (List Char))) ([] : List Char)).1 :=
  (dynamic_cleanup_spec (some DynStep.goto) "timeout" [] []).1 (by decide)

/-- Claim C10: when the static fetch succeeds with zero model matches and
the dynamic attempt errors, the check returns the dynamic error; the
successful static fetch is discarded. -/
theorem static_discarded_on_dynamic_error
    (patterns : Dict (List (List Char))) (text : List Char) (e : String)
    (hzero : scanModels patterns text = []) :
    check_url_for_models (FetchOutcome.ok text) (FetchOutcome.fail e)
        patterns false =
      ([FetchAttempt.staticFetch, FetchAttempt.dynamicFetch],
        FetchResult.error e) := by
  have hst : check_url_for_models_static (FetchOutcome.ok text) patterns
      = FetchResult.found [] := by
    simp [check_url_for_models_static, hzero]
  rw [check_url_unforced, hst]
  rfl

/-- Witness for static_discarded_on_dynamic_error: a matchless static page
followed by a dynamic error reports the error. -/
theorem static_discarded_on_dynamic_error_witness :
    check_url_for_models (FetchOutcome.ok "xyz".toList)
        (FetchOutcome.fail "boom") [("A", [['q']])] false =
      ([FetchAttempt.staticFetch, FetchAttempt.dynamicFetch],
        FetchResult.error "boom") :=
  static_discarded_on_dynamic_error [("A", [['q']])] "xyz".toList "boom" rfl

end Check
